import Mathlib

/-!
Shallow embedding of the habit-tracker statistics and persistence engine
(`src/src/utils/dateUtils.ts`, `src/src/App.tsx`, and the `useHabits` hook in
`src/unnamed/part_002`), together with theorems settling the specification
claims about it.

Dates are modelled at calendar-day granularity as civil (year, month, day)
triples — every use of JS `Date` in the engine is whole-day arithmetic
(`setDate(getDate() - i)`) followed by rendering to a `YYYY-MM-DD` string.
JS objects used as `{ [day: string]: boolean }` maps are modelled as
association lists, preserving JS insertion-order semantics of object spread.
-/

namespace HabitTracker

/-! ### Calendar dates -/

/-- A civil calendar date at day granularity (the normalized year/month/day
view of a JS `Date`).  `month` is 1–12 and `day` 1-based on valid dates. -/
@[ext]
structure Date where
  year : Int
  month : Int
  day : Int
deriving DecidableEq

/-- Gregorian leap-year rule (as implemented by JS `Date` day arithmetic). -/
def isLeapYear (y : Int) : Bool :=
  y % 4 == 0 && (y % 100 != 0 || y % 400 == 0)

/-- Number of days in month `m` of year `y` (Gregorian). -/
def daysInMonth (y m : Int) : Int :=
  if m = 2 then (if isLeapYear y then 29 else 28)
  else if m = 4 ∨ m = 6 ∨ m = 9 ∨ m = 11 then 30
  else 31

/-- A well-formed civil date. -/
def ValidDate (d : Date) : Prop :=
  1 ≤ d.month ∧ d.month ≤ 12 ∧ 1 ≤ d.day ∧ d.day ≤ daysInMonth d.year d.month

instance (d : Date) : Decidable (ValidDate d) := by
  unfold ValidDate; exact inferInstance

/-- The previous calendar day (what JS `date.setDate(date.getDate() - 1)`
computes, with month and year borrow). -/
def predDay (d : Date) : Date :=
  if 1 < d.day then ⟨d.year, d.month, d.day - 1⟩
  else if 1 < d.month then ⟨d.year, d.month - 1, daysInMonth d.year (d.month - 1)⟩
  else ⟨d.year - 1, 12, 31⟩

/-- `subDays d k` is the calendar day `k` whole days before `d`
(JS `new Date(today); date.setDate(today.getDate() - k)`). -/
def subDays (d : Date) : Nat → Date
  | 0 => d
  | k + 1 => predDay (subDays d k)

/-- Chronological strict order on civil dates. -/
def dateLt (a b : Date) : Prop :=
  a.year < b.year ∨
    (a.year = b.year ∧ (a.month < b.month ∨ (a.month = b.month ∧ a.day < b.day)))

instance (a b : Date) : Decidable (dateLt a b) := by
  unfold dateLt; exact inferInstance

instance : IsTrans Date dateLt :=
  ⟨fun a b c hab hbc => by unfold dateLt at *; omega⟩

/-- Two decimal digits with zero padding (the `MM` / `DD` fields). -/
def pad2 (n : Nat) : List Char :=
  [Nat.digitChar (n / 10 % 10), Nat.digitChar (n % 10)]

/-- Four decimal digits with zero padding (the `YYYY` field). -/
def pad4 (n : Nat) : List Char :=
  [Nat.digitChar (n / 1000 % 10), Nat.digitChar (n / 100 % 10),
   Nat.digitChar (n / 10 % 10), Nat.digitChar (n % 10)]

/-- `formatDate` from `src/src/utils/dateUtils.ts`: renders a date as its
`YYYY-MM-DD` calendar-day identifier (the day part of `toISOString()`). -/
def formatDate (d : Date) : String :=
  ⟨pad4 d.year.toNat ++ '-' :: (pad2 d.month.toNat ++ '-' :: pad2 d.day.toNat)⟩

/-- `getDateRange` from `src/src/utils/dateUtils.ts`: the loop pushes
`today - i` days for `i = days-1` down to `0`, oldest first.  The current
date is passed explicitly (`new Date()` in the source). -/
def getDateRange (days : Nat) (today : Date) : List Date :=
  (List.range days).map (fun j => subDays today (days - 1 - j))

/-- The calendar-day identifiers of `getDateRange`, as consumed by the UI
(each rendered with `formatDate`). -/
def dayRange (n : Nat) (today : Date) : List String :=
  (getDateRange n today).map formatDate

/-! ### Completions maps

A habit's `completions` field is a JS object `{ [day: string]: boolean }`,
modelled as an association list in insertion order (JS objects preserve
insertion order for non-integer-like string keys). -/

/-- `completions` map: calendar-day identifier to completion flag. -/
abbrev Completions := List (String × Bool)

/-- Truthiness of `completions[day]`: an absent key reads as `undefined`,
which is falsy, so absent ≡ `false`. -/
def completedOn (c : Completions) (day : String) : Bool :=
  (c.lookup day).getD false

/-- JS object-spread update `{ ...c, [k]: v }`: an existing key keeps its
position and gets the new value; a fresh key is appended at the end. -/
def setKey (c : Completions) (k : String) (v : Bool) : Completions :=
  if (c.lookup k).isSome then c.map (fun p => if p.1 = k then (k, v) else p)
  else c ++ [(k, v)]

/-- The per-map effect of `toggleCompletion`:
`{ ...completions, [date]: !completions[date] }`. -/
def toggleDay (c : Completions) (date : String) : Completions :=
  setKey c date (!(completedOn c date))

/-! ### Habits and the repository (`useHabits` in `src/unnamed/part_002`) -/

/-- The `Habit` record from `src/src/types/habit.ts`. -/
structure Habit where
  id : String
  name : String
  emoji : String
  color : String
  createdAt : String
  completions : Completions
deriving DecidableEq

/-- `addHabit(name, emoji, color)`: appends a new habit whose id is
`Date.now().toString()` — `now` is the millisecond clock reading at the
call and `todayDate` the same instant's calendar day (for `createdAt`). -/
def addHabit (habits : List Habit) (name emoji color : String)
    (now : Nat) (todayDate : Date) : List Habit :=
  habits ++ [{ id := Nat.repr now, name := name, emoji := emoji, color := color,
               createdAt := formatDate todayDate, completions := [] }]

/-- `deleteHabit(id)`: `habits.filter(habit => habit.id !== id)`. -/
def deleteHabit (habits : List Habit) (id : String) : List Habit :=
  habits.filter (fun habit => habit.id != id)

/-- The per-habit effect of `toggleCompletion` on a matching habit. -/
def toggleHabit (habit : Habit) (date : String) : Habit :=
  { habit with completions := toggleDay habit.completions date }

/-- `toggleCompletion(habitId, date)`: maps over the collection, flipping
`completions[date]` on every habit whose id matches. -/
def toggleCompletion (habits : List Habit) (habitId date : String) : List Habit :=
  habits.map (fun habit => if habit.id = habitId then toggleHabit habit date else habit)

/-! ### The persistent store read (`useLocalStorage`, `src/src/App.tsx`) -/

/-- The initial read of `useLocalStorage`: `getItem(key)` (`null` = `none`),
then `item ? JSON.parse(item) : initialValue` inside `try/catch`, the catch
returning `initialValue`.  `JSON.parse` is a platform builtin, modelled as a
fallible `parse` parameter (`none` = the parser throws); the empty string is
falsy in JS, hence the explicit test. -/
def useLocalStorageGet {V : Type} (storage : String → Option String)
    (parse : String → Option V) (key : String) (initialValue : V) : V :=
  match storage key with
  | none => initialValue
  | some item => if item = "" then initialValue else (parse item).getD initialValue

/-- A simple concrete stand-in for `JSON.parse` at type `Nat`, used to
instantiate store theorems on concrete inputs. -/
def parseNat (s : String) : Option Nat :=
  if s.data ≠ [] ∧ s.data.all Char.isDigit then
    some (s.data.foldl (fun n c => n * 10 + (c.toNat - 48)) 0)
  else none

/-! ### Statistics engine (`calculateStreak`, `getHabitStats`) -/

/-- The loop of `calculateStreak`:
`for (let i = 0; i >= 0; i--)` with body

* `if (habit.completions[dateString]) streak++;`   (then `i--`, retest)
* `else if (i === 0) continue;`                    (then `i--`, retest)
* `else break;`

where `dateString` is `today` minus `i` days.  The index update is `i--`, so
`i` only ever takes the value `0` before the guard `i >= 0` fails. -/
def streakLoop (c : Completions) (today : Date) (i : Int) (streak : Nat) : Nat :=
  if h : 0 ≤ i then
    if completedOn c (formatDate (subDays today i.toNat)) then
      streakLoop c today (i - 1) (streak + 1)
    else if i = 0 then
      streakLoop c today (i - 1) streak
    else streak
  else streak
termination_by (i + 1).toNat
decreasing_by all_goals omega

/-- `calculateStreak(habit)` from `src/unnamed/part_002` / `src/src/App.tsx`,
with the current date passed explicitly (`new Date()` in the source). -/
def calculateStreak (habit : Habit) (today : Date) : Nat :=
  streakLoop habit.completions today 0 0

/-- `Object.values(habit.completions).filter(Boolean).length`. -/
def totalCompletions (c : Completions) : Nat :=
  ((c.map Prod.snd).filter (fun b => b)).length

/-- `Object.keys(habit.completions).length`. -/
def totalDays (c : Completions) : Nat :=
  (c.map Prod.fst).length

/-- `Object.keys(habit.completions).sort()`: the keys in lexicographic
order.  JS `Array.prototype.sort` with the default comparator sorts strings
lexicographically; on a linearly ordered type the sorted permutation is
unique, so it is modelled with insertion sort. -/
def sortedDates (c : Completions) : List String :=
  (c.map Prod.fst).insertionSort (· ≤ ·)

/-- The longest-streak scan of `getHabitStats`: walk the sorted dates with
`tempStreak` and `longestStreak`, resetting `tempStreak` on a falsy entry. -/
def longestStreakScan (c : Completions) : List String → Nat → Nat → Nat
  | [], _, longest => longest
  | date :: rest, temp, longest =>
    if completedOn c date then longestStreakScan c rest (temp + 1) (max longest (temp + 1))
    else longestStreakScan c rest 0 longest

/-- The `longestStreak` field computed by `getHabitStats`. -/
def longestStreak (c : Completions) : Nat :=
  longestStreakScan c (sortedDates c) 0 0

/-- The `completionRate` field computed by `getHabitStats`:
`totalDays > 0 ? (completions / totalDays) * 100 : 0`, with the JS float
division modelled over `ℚ`. -/
def completionRate (c : Completions) : ℚ :=
  if 0 < totalDays c then ((totalCompletions c : ℚ) / (totalDays c : ℚ)) * 100 else 0

/-- The derived `HabitStats` record (`src/src/types/habit.ts`). -/
structure HabitStats where
  currentStreak : Nat
  longestStreak : Nat
  completionRate : ℚ
  totalCompletions : Nat
deriving DecidableEq

/-- `getHabitStats(habit)` from `src/unnamed/part_002`. -/
def getHabitStats (habit : Habit) (today : Date) : HabitStats :=
  { currentStreak := calculateStreak habit today
    longestStreak := longestStreak habit.completions
    completionRate := completionRate habit.completions
    totalCompletions := totalCompletions habit.completions }

/-! ### Repository call traces -/

/-- One repository call.  An `add` carries the clock reading the call
observes (`Date.now()` and the same instant's calendar day). -/
inductive Op where
  | add (name emoji color : String) (now : Nat) (todayDate : Date)
  | delete (id : String)
  | toggle (habitId date : String)

/-- Apply one repository call to the collection. -/
def applyOp (habits : List Habit) : Op → List Habit
  | .add name emoji color now todayDate => addHabit habits name emoji color now todayDate
  | .delete id => deleteHabit habits id
  | .toggle habitId date => toggleCompletion habits habitId date

/-- The collection state reached from the empty collection by a call trace. -/
def runOps (ops : List Op) : List Habit :=
  ops.foldl applyOp []

/-- The clock readings observed by the `add` calls of a trace, in order. -/
def addTimes : List Op → List Nat
  | [] => []
  | .add _ _ _ now _ :: rest => now :: addTimes rest
  | _ :: rest => addTimes rest

/-- A sequence of `toggleCompletion` calls (habit id, day), folded over the
collection. -/
def applyToggles (ts : List (String × String)) (habits : List Habit) : List Habit :=
  ts.foldl (fun hs p => toggleCompletion hs p.1 p.2) habits

/-- The cumulative effect of a toggle sequence on one habit. -/
def applyTogglesHabit (ts : List (String × String)) (h : Habit) : Habit :=
  ts.foldl (fun h p => if h.id = p.1 then toggleHabit h p.2 else h) h

/-! ### Independent formulation of the longest-streak value -/

/-- Length of the leading run of `true` values of a boolean list. -/
def leadTrue : List Bool → Nat
  | true :: rest => leadTrue rest + 1
  | _ => 0

/-- Stated from the specification's description, for comparison with the
scan implemented by `getHabitStats`: the maximum length of a run of
consecutive `true` values in a boolean list (the largest leading run over
all suffixes). -/
def maxTrueRun : List Bool → Nat
  | [] => 0
  | l@(_ :: rest) => max (leadTrue l) (maxTrueRun rest)

/-- Decimal digit characters of a natural number, most significant first
(a fuel-free counterpart of the rendering underlying `Nat.repr`). -/
def natDigits (n : Nat) : List Char :=
  if _h : n < 10 then [Nat.digitChar n]
  else natDigits (n / 10) ++ [Nat.digitChar (n % 10)]
termination_by n
decreasing_by omega

/-! ## Lemmas on completions maps -/

theorem lookup_map_overwrite (c : Completions) (k : String) (v : Bool)
    (hsome : (c.lookup k).isSome) :
    (c.map (fun p => if p.1 = k then (k, v) else p)).lookup k = some v := by
  induction c with
  | nil => simp [List.lookup] at hsome
  | cons p t ih =>
    obtain ⟨k', v'⟩ := p
    simp only [List.map_cons]
    by_cases hk : k' = k
    · subst hk
      rw [if_pos rfl]
      simp [List.lookup]
    · rw [if_neg hk]
      have hk2 : (k == k') = false := by simp [Ne.symm hk]
      simp only [List.lookup, hk2] at hsome ⊢
      exact ih hsome

theorem lookup_append_single (c : Completions) (k : String) (v : Bool)
    (hnone : c.lookup k = none) :
    (c ++ [(k, v)]).lookup k = some v := by
  induction c with
  | nil => simp [List.lookup]
  | cons p t ih =>
    obtain ⟨k', v'⟩ := p
    by_cases hk : k = k'
    · subst hk; simp [List.lookup] at hnone
    · have hk2 : (k == k') = false := by simp [hk]
      simp only [List.cons_append, List.lookup, hk2] at hnone ⊢
      exact ih hnone

theorem lookup_setKey_self (c : Completions) (k : String) (v : Bool) :
    (setKey c k v).lookup k = some v := by
  unfold setKey
  split
  · exact lookup_map_overwrite c k v (by assumption)
  · rename_i h
    exact lookup_append_single c k v (Option.not_isSome_iff_eq_none.mp h)

theorem completedOn_setKey_self (c : Completions) (k : String) (v : Bool) :
    completedOn (setKey c k v) k = v := by
  simp [completedOn, lookup_setKey_self]

theorem completedOn_toggleDay_self (c : Completions) (d : String) :
    completedOn (toggleDay c d) d = !(completedOn c d) := by
  simp [toggleDay, completedOn_setKey_self]

theorem toggleHabit_id (h : Habit) (d : String) : (toggleHabit h d).id = h.id := rfl

/-! ## C2: toggling twice restores the completion state -/

/-- C2.  For every collection, habit id and day `d`, applying
`toggleCompletion(habitId, d)` twice in succession restores each habit's
completion state for day `d` (and its id) to what it was before the first
toggle. -/
theorem toggleCompletion_involutive (habits : List Habit) (habitId date : String) :
    (toggleCompletion (toggleCompletion habits habitId date) habitId date).map
        (fun h => (h.id, completedOn h.completions date)) =
      habits.map (fun h => (h.id, completedOn h.completions date)) := by
  unfold toggleCompletion
  rw [List.map_map, List.map_map]
  apply List.map_congr_left
  intro h _
  by_cases hid : h.id = habitId
  · simp only [Function.comp_apply, if_pos hid, toggleHabit_id, if_pos hid]
    refine Prod.ext (by simp [toggleHabit_id, hid]) ?_
    show completedOn (toggleDay (toggleDay h.completions date) date) date =
      completedOn h.completions date
    rw [completedOn_toggleDay_self, completedOn_toggleDay_self, Bool.not_not]
  · simp [Function.comp_apply, if_neg hid]

/-! ## C7: unknown ids are no-ops; delete is idempotent -/

/-- C7.  Deleting an id no habit has, and toggling a habit id no habit has,
leave the collection unchanged; and `deleteHabit` is idempotent. -/
theorem unknown_id_noop :
    (∀ (habits : List Habit) (id : String),
        (∀ h ∈ habits, h.id ≠ id) → deleteHabit habits id = habits) ∧
      (∀ (habits : List Habit) (habitId date : String),
        (∀ h ∈ habits, h.id ≠ habitId) → toggleCompletion habits habitId date = habits) ∧
      (∀ (habits : List Habit) (id : String),
        deleteHabit (deleteHabit habits id) id = deleteHabit habits id) := by
  refine ⟨?_, ?_, ?_⟩
  · intro habits id hno
    unfold deleteHabit
    rw [List.filter_eq_self]
    intro h hh
    simpa using hno h hh
  · intro habits habitId date hno
    unfold toggleCompletion
    induction habits with
    | nil => rfl
    | cons h t ih =>
      rw [List.map_cons, if_neg (hno h (List.mem_cons_self h t)),
        ih (fun x hx => hno x (List.mem_cons_of_mem h hx))]
  · intro habits id
    unfold deleteHabit
    rw [List.filter_filter]
    simp

/-- Witness for C7 at concrete inputs. -/
theorem unknown_id_noop_witness :
    (deleteHabit [⟨"1", "Read", "b", "#00f", "2024-01-01", []⟩] "2" =
        [⟨"1", "Read", "b", "#00f", "2024-01-01", []⟩]) ∧
      (toggleCompletion [⟨"1", "Read", "b", "#00f", "2024-01-01", []⟩] "2" "2024-01-02" =
        [⟨"1", "Read", "b", "#00f", "2024-01-01", []⟩]) ∧
      (deleteHabit (deleteHabit [⟨"1", "Read", "b", "#00f", "2024-01-01", []⟩] "1") "1" =
        deleteHabit [⟨"1", "Read", "b", "#00f", "2024-01-01", []⟩] "1") :=
  ⟨unknown_id_noop.1 _ "2" (by decide),
    unknown_id_noop.2.1 _ "2" "2024-01-02" (by decide),
    unknown_id_noop.2.2 _ "1"⟩

/-! ## C8: the store read degrades to the default -/

/-- C8.  The initial `useLocalStorage` read returns the caller-supplied
default when the key was never written, and also falls back to the default
when the stored value is unparseable (instead of propagating the failure). -/
theorem store_get_falls_back {V : Type} (storage : String → Option String)
    (parse : String → Option V) (key : String) (initialValue : V) :
    (storage key = none → useLocalStorageGet storage parse key initialValue = initialValue) ∧
      (∀ item, storage key = some item → parse item = none →
        useLocalStorageGet storage parse key initialValue = initialValue) := by
  constructor
  · intro h
    unfold useLocalStorageGet
    rw [h]
  · intro item h hp
    unfold useLocalStorageGet
    rw [h]
    by_cases he : item = "" <;> simp [he, hp]

/-- Witness for C8: a store holding corrupt JSON under `"habits"` and
nothing under `"theme"`. -/
theorem store_get_falls_back_witness :
    ((fun k => if k = "habits" then some "not-json" else none) "theme" = none ∧
        useLocalStorageGet (fun k => if k = "habits" then some "not-json" else none)
          parseNat "theme" 7 = 7) ∧
      ((fun k => if k = "habits" then some "not-json" else none) "habits" = some "not-json" ∧
        parseNat "not-json" = none ∧
        useLocalStorageGet (fun k => if k = "habits" then some "not-json" else none)
          parseNat "habits" 7 = 7) :=
  ⟨⟨by decide, (store_get_falls_back _ parseNat "theme" 7).1 (by decide)⟩,
    ⟨by decide, by decide,
      (store_get_falls_back _ parseNat "habits" 7).2 "not-json" (by decide) (by decide)⟩⟩

/-! ## Injectivity of the decimal rendering used for habit ids -/

theorem natDigits_lt {n : Nat} (h : n < 10) : natDigits n = [Nat.digitChar n] := by
  rw [natDigits.eq_def, dif_pos h]

theorem natDigits_ge {n : Nat} (h : 10 ≤ n) :
    natDigits n = natDigits (n / 10) ++ [Nat.digitChar (n % 10)] := by
  conv_lhs => rw [natDigits.eq_def]
  rw [dif_neg (by omega)]

theorem natDigits_ne_nil (n : Nat) : natDigits n ≠ [] := by
  by_cases h : n < 10
  · rw [natDigits_lt h]; simp
  · rw [natDigits_ge (by omega)]; simp

theorem digitChar_inj {a b : Nat} (ha : a < 10) (hb : b < 10) :
    Nat.digitChar a = Nat.digitChar b → a = b := by
  interval_cases a <;> interval_cases b <;> decide

theorem toDigitsCore_eq_natDigits (fuel n : Nat) (acc : List Char) (h : n < fuel) :
    Nat.toDigitsCore 10 fuel n acc = natDigits n ++ acc := by
  induction fuel generalizing n acc with
  | zero => omega
  | succ fuel ih =>
    show (if n / 10 = 0 then Nat.digitChar (n % 10) :: acc
      else Nat.toDigitsCore 10 fuel (n / 10) (Nat.digitChar (n % 10) :: acc)) = _
    by_cases h10 : n / 10 = 0
    · rw [if_pos h10]
      have hn : n < 10 := by omega
      rw [natDigits_lt hn, Nat.mod_eq_of_lt hn]
      simp
    · rw [if_neg h10]
      rw [ih (n / 10) _ (by omega), natDigits_ge (show (10:Nat) ≤ n by omega)]
      simp

theorem repr_eq_natDigits (n : Nat) : Nat.repr n = (natDigits n).asString := by
  show (Nat.toDigits 10 n).asString = _
  rw [show Nat.toDigits 10 n = Nat.toDigitsCore 10 (n + 1) n [] from rfl,
    toDigitsCore_eq_natDigits (n + 1) n [] (by omega)]
  simp

theorem natDigits_inj {m n : Nat} (h : natDigits m = natDigits n) : m = n := by
  induction m using Nat.strong_induction_on generalizing n with
  | _ m ih =>
    by_cases hm : m < 10 <;> by_cases hn : n < 10
    · rw [natDigits_lt hm, natDigits_lt hn] at h
      exact digitChar_inj hm hn (by simpa using h)
    · exfalso
      rw [natDigits_lt hm, natDigits_ge (show (10:Nat) ≤ n by omega)] at h
      have hlen := congrArg List.length h
      simp only [List.length_append, List.length_singleton] at hlen
      have hpos := List.length_pos.mpr (natDigits_ne_nil (n / 10))
      omega
    · exfalso
      rw [natDigits_ge (show (10:Nat) ≤ m by omega), natDigits_lt hn] at h
      have hlen := congrArg List.length h
      simp only [List.length_append, List.length_singleton] at hlen
      have hpos := List.length_pos.mpr (natDigits_ne_nil (m / 10))
      omega
    · rw [natDigits_ge (show (10:Nat) ≤ m by omega),
        natDigits_ge (show (10:Nat) ≤ n by omega)] at h
      obtain ⟨h3, h4⟩ := List.append_inj' h (by simp)
      have hd : m % 10 = n % 10 :=
        digitChar_inj (by omega) (by omega) (by simpa using h4)
      have hq : m / 10 = n / 10 := ih (m / 10) (by omega) h3
      omega

theorem nat_repr_inj {m n : Nat} (h : Nat.repr m = Nat.repr n) : m = n := by
  rw [repr_eq_natDigits, repr_eq_natDigits] at h
  exact natDigits_inj (by simpa [List.asString] using congrArg String.data h)

/-! ## C3: uniqueness of habit ids along call traces -/

theorem toggleCompletion_map_id (habits : List Habit) (habitId date : String) :
    (toggleCompletion habits habitId date).map Habit.id = habits.map Habit.id := by
  unfold toggleCompletion
  rw [List.map_map]
  apply List.map_congr_left
  intro a _
  by_cases hc : a.id = habitId <;> simp [hc, toggleHabit_id]

theorem runOps_nodup_aux (ops : List Op) (habits : List Habit) (bound : Nat)
    (hids : ∀ h ∈ habits, ∃ t, t < bound ∧ h.id = Nat.repr t)
    (hnodup : (habits.map Habit.id).Nodup)
    (hfuture : ∀ t ∈ addTimes ops, bound ≤ t)
    (hmono : (addTimes ops).Pairwise (· < ·)) :
    ((ops.foldl applyOp habits).map Habit.id).Nodup := by
  induction ops generalizing habits bound with
  | nil => simpa using hnodup
  | cons op rest ih =>
    cases op with
    | add name emoji color now todayDate =>
      have hbn : bound ≤ now := hfuture now (by simp [addTimes])
      have hmono' := (List.pairwise_cons.mp (by simpa [addTimes] using hmono))
      refine ih (addHabit habits name emoji color now todayDate) (now + 1) ?_ ?_ ?_ hmono'.2
      · intro h hmem
        rcases List.mem_append.mp hmem with hold | hnew
        · rcases hids h hold with ⟨t, hlt, hid⟩
          exact ⟨t, by omega, hid⟩
        · refine ⟨now, by omega, ?_⟩
          rw [List.mem_singleton.mp hnew]
      · unfold addHabit
        rw [List.map_append]
        refine hnodup.append (by simp) ?_
        intro x hx hx2
        simp at hx2
        rcases List.mem_map.mp hx with ⟨h, hmem, hxid⟩
        rcases hids h hmem with ⟨t, hlt, hid⟩
        have : t = now := nat_repr_inj (by rw [← hid, hxid, hx2])
        omega
      · intro t ht
        have := hmono'.1 t (by simpa [addTimes] using ht)
        omega
    | delete id =>
      refine ih (deleteHabit habits id) bound ?_ ?_ hfuture hmono
      · intro h hm
        exact hids h (List.mem_of_mem_filter hm)
      · exact hnodup.sublist (List.Sublist.map Habit.id (List.filter_sublist habits))
    | toggle habitId date =>
      refine ih (toggleCompletion habits habitId date) bound ?_ ?_ hfuture hmono
      · intro h hm
        unfold toggleCompletion at hm
        rcases List.mem_map.mp hm with ⟨h₀, hmem, rfl⟩
        rcases hids h₀ hmem with ⟨t, hlt, hid⟩
        refine ⟨t, hlt, ?_⟩
        by_cases hc : h₀.id = habitId
        · rw [if_pos hc, toggleHabit_id]; exact hid
        · rw [if_neg hc]; exact hid
      · rw [toggleCompletion_map_id]
        exact hnodup

/-- C3 (amended).  If each `addHabit` call observes a strictly larger
`Date.now()` reading than every earlier `addHabit` call, then in every
collection state reachable from the empty collection by `addHabit`,
`deleteHabit` and `toggleCompletion` calls, the habit ids are pairwise
distinct. -/
theorem runOps_ids_nodup (ops : List Op)
    (hclock : (addTimes ops).Pairwise (· < ·)) :
    ((runOps ops).map Habit.id).Nodup := by
  unfold runOps
  exact runOps_nodup_aux ops [] 0 (by simp) (by simp) (fun t _ => Nat.zero_le t) hclock

/-- Witness for the amended C3: two adds one millisecond apart, a toggle
and a delete. -/
theorem runOps_ids_nodup_witness :
    (addTimes [Op.add "Read" "a" "#00f" 5 ⟨2024, 1, 1⟩,
        Op.add "Gym" "b" "#f00" 6 ⟨2024, 1, 1⟩,
        Op.toggle "5" "2024-01-01", Op.delete "6"]).Pairwise (· < ·) ∧
      ((runOps [Op.add "Read" "a" "#00f" 5 ⟨2024, 1, 1⟩,
        Op.add "Gym" "b" "#f00" 6 ⟨2024, 1, 1⟩,
        Op.toggle "5" "2024-01-01", Op.delete "6"]).map Habit.id).Nodup :=
  ⟨by decide, runOps_ids_nodup _ (by decide)⟩

/-- C3 counterexample: two `addHabit` calls that observe the same
`Date.now()` reading (the same clock millisecond) produce two habits with
the same id, so the claim fails for that call sequence. -/
theorem runOps_ids_dup_counterexample :
    ¬ ((runOps [Op.add "Read" "a" "#00f" 5 ⟨2024, 1, 1⟩,
        Op.add "Gym" "b" "#f00" 5 ⟨2024, 1, 1⟩]).map Habit.id).Nodup := by
  decide

/-! ## The current-streak loop -/

theorem streakLoop_neg (c : Completions) (today : Date) (i : Int) (streak : Nat)
    (h : i < 0) : streakLoop c today i streak = streak := by
  rw [streakLoop.eq_def, dif_neg (by omega)]

theorem streakLoop_zero (c : Completions) (today : Date) (streak : Nat) :
    streakLoop c today 0 streak =
      if completedOn c (formatDate today) then streak + 1 else streak := by
  rw [streakLoop.eq_def, dif_pos (by omega : (0:Int) ≤ 0)]
  show (if completedOn c (formatDate today) then
      streakLoop c today (0 - 1) (streak + 1)
    else if (0:Int) = 0 then streakLoop c today (0 - 1) streak else streak) = _
  by_cases hc : completedOn c (formatDate today)
  · rw [if_pos hc, if_pos hc, streakLoop_neg _ _ _ _ (by omega)]
  · rw [if_neg hc, if_pos rfl, if_neg hc, streakLoop_neg _ _ _ _ (by omega)]

theorem calculateStreak_eq (habit : Habit) (today : Date) :
    calculateStreak habit today =
      if completedOn habit.completions (formatDate today) then 1 else 0 := by
  unfold calculateStreak
  rw [streakLoop_zero]

/-! ## C9: the streak loop only ever examines today -/

/-- C9.  `calculateStreak` returns `1` exactly when the completions entry
for today's identifier is `true` and `0` otherwise — the loop index starts
at `0` and decrements, so only day offset `0` is examined — and in
particular the result is at most `1` no matter how many earlier consecutive
days are completed. -/
theorem calculateStreak_only_today (habit : Habit) (today : Date) :
    calculateStreak habit today =
        (if completedOn habit.completions (formatDate today) then 1 else 0) ∧
      calculateStreak habit today ≤ 1 := by
  refine ⟨calculateStreak_eq habit today, ?_⟩
  rw [calculateStreak_eq]
  split <;> omega

/-! ## C1: the spec's Scenario C fails on the code -/

/-- C1 (evaluation of the code at the claim's input).  For
`completions = {"2024-01-05": true}` and current date 2024-01-06,
`calculateStreak` returns `0`, not the `1` the claim requires: the
`i--` update ends the walk after offset `0`, so yesterday is never
examined. -/
theorem scenarioC_calculateStreak_zero :
    calculateStreak ⟨"1", "Read", "a", "#00f", "2024-01-05",
        [("2024-01-05", true)]⟩ ⟨2024, 1, 6⟩ = 0 ∧
      formatDate ⟨2024, 1, 6⟩ = "2024-01-06" := by
  constructor
  · rw [calculateStreak_eq]
    decide
  · decide

/-! ## C4: the longest-streak scan computes the maximal true run -/

theorem leadTrue_false_cons (l : List Bool) : leadTrue (false :: l) = 0 := rfl

theorem leadTrue_true_cons (l : List Bool) : leadTrue (true :: l) = leadTrue l + 1 := rfl

theorem leadTrue_replicate_append (n : Nat) (l : List Bool) :
    leadTrue (List.replicate n true ++ l) = n + leadTrue l := by
  induction n with
  | zero => simp
  | succ n ih =>
    rw [List.replicate_succ, List.cons_append, leadTrue_true_cons, ih]
    omega

theorem maxTrueRun_cons (b : Bool) (l : List Bool) :
    maxTrueRun (b :: l) = max (leadTrue (b :: l)) (maxTrueRun l) := rfl

theorem maxTrueRun_ge_leadTrue (l : List Bool) : leadTrue l ≤ maxTrueRun l := by
  cases l with
  | nil => exact Nat.le_refl 0
  | cons b rest => rw [maxTrueRun_cons]; omega

theorem maxTrueRun_replicate_true (n : Nat) : maxTrueRun (List.replicate n true) = n := by
  induction n with
  | zero => rfl
  | succ n ih =>
    rw [List.replicate_succ, maxTrueRun_cons, leadTrue_true_cons, ih]
    have : leadTrue (List.replicate n true) = n := by
      simpa using leadTrue_replicate_append n []
    omega

theorem maxTrueRun_replicate_false_cons (n : Nat) (xs : List Bool) :
    maxTrueRun (List.replicate n true ++ false :: xs) = max n (maxTrueRun xs) := by
  induction n with
  | zero => simp [maxTrueRun_cons, leadTrue_false_cons]
  | succ n ih =>
    rw [List.replicate_succ, List.cons_append, maxTrueRun_cons, ih, leadTrue_true_cons,
      leadTrue_replicate_append, leadTrue_false_cons]
    omega

theorem longestStreakScan_eq (c : Completions) (dates : List String)
    (temp longest : Nat) (h : temp ≤ longest) :
    longestStreakScan c dates temp longest =
      max longest (maxTrueRun (List.replicate temp true ++ dates.map (completedOn c))) := by
  induction dates generalizing temp longest with
  | nil =>
    show longest = _
    rw [List.map_nil, List.append_nil, maxTrueRun_replicate_true]
    omega
  | cons date rest ih =>
    rw [List.map_cons]
    by_cases hc : completedOn c date
    · show (if completedOn c date then
          longestStreakScan c rest (temp + 1) (max longest (temp + 1))
        else longestStreakScan c rest 0 longest) = _
      rw [if_pos hc, ih (temp + 1) (max longest (temp + 1)) (by omega), hc]
      have hsplit : List.replicate temp true ++ true :: rest.map (completedOn c) =
          List.replicate (temp + 1) true ++ rest.map (completedOn c) := by
        rw [List.replicate_succ', List.append_assoc, List.singleton_append]
      rw [hsplit]
      have hM := le_trans
        (by rw [leadTrue_replicate_append]; omega :
          temp + 1 ≤ leadTrue (List.replicate (temp + 1) true ++ rest.map (completedOn c)))
        (maxTrueRun_ge_leadTrue _)
      omega
    · show (if completedOn c date then
          longestStreakScan c rest (temp + 1) (max longest (temp + 1))
        else longestStreakScan c rest 0 longest) = _
      have hcf : completedOn c date = false := by simpa using hc
      rw [if_neg hc, ih 0 longest (Nat.zero_le _), hcf, maxTrueRun_replicate_false_cons]
      simp only [List.replicate_zero, List.nil_append]
      omega

/-- C4.  `longestStreak` equals the maximum length of a run of consecutive
`true` values in the completions entries taken in sorted key order; a
calendar day with no entry does not appear in that sequence at all, so the
scan counts consecutive entries, not consecutive calendar days. -/
theorem longestStreak_eq_maxTrueRun (c : Completions) :
    longestStreak c = maxTrueRun ((sortedDates c).map (completedOn c)) := by
  unfold longestStreak
  rw [longestStreakScan_eq c _ 0 0 (Nat.le_refl 0)]
  simp

/-! ## C6: the completion rate -/

/-- C6.  `completionRate` is `100 * (true entries) / (entries)`, `0` on an
empty map, and always within `[0, 100]`; both counts range over the keys
present, so untracked days influence neither. -/
theorem completionRate_spec (c : Completions) :
    completionRate c =
        (if totalDays c = 0 then 0 else 100 * (totalCompletions c : ℚ) / (totalDays c : ℚ)) ∧
      0 ≤ completionRate c ∧ completionRate c ≤ 100 := by
  have hle : totalCompletions c ≤ totalDays c := by
    unfold totalCompletions totalDays
    simpa using List.length_filter_le _ (c.map Prod.snd)
  refine ⟨?_, ?_, ?_⟩
  · unfold completionRate
    by_cases h : totalDays c = 0
    · rw [if_neg (by omega), if_pos h]
    · rw [if_pos (by omega), if_neg h]
      ring
  · unfold completionRate
    split
    · positivity
    · norm_num
  · unfold completionRate
    by_cases h : 0 < totalDays c
    · rw [if_pos h]
      have hn : (0:ℚ) < (totalDays c : ℚ) := by exact_mod_cast h
      have ht : (totalCompletions c : ℚ) ≤ (totalDays c : ℚ) := by exact_mod_cast hle
      rw [div_mul_eq_mul_div, div_le_iff₀ hn]
      nlinarith
    · rw [if_neg h]
      norm_num

/-! ## C10: toggling creates explicit entries and never removes them -/

theorem lookup_map_overwrite_other (c : Completions) (k : String) (v : Bool)
    (k' : String) (hne : k' ≠ k) :
    (c.map (fun p => if p.1 = k then (k, v) else p)).lookup k' = c.lookup k' := by
  induction c with
  | nil => rfl
  | cons p t ih =>
    obtain ⟨kh, vh⟩ := p
    simp only [List.map_cons]
    by_cases hk : kh = k
    · subst hk
      rw [if_pos rfl]
      have h1 : (k' == kh) = false := by simp [hne]
      simp only [List.lookup, h1]
      exact ih
    · rw [if_neg hk]
      by_cases h2 : k' = kh
      · subst h2; simp [List.lookup]
      · have h3 : (k' == kh) = false := by simp [h2]
        simp only [List.lookup, h3]
        exact ih

theorem lookup_append_single_other (c : Completions) (k : String) (v : Bool)
    (k' : String) (hne : k' ≠ k) : (c ++ [(k, v)]).lookup k' = c.lookup k' := by
  induction c with
  | nil =>
    have h1 : (k' == k) = false := by simp [hne]
    simp [List.lookup, h1]
  | cons p t ih =>
    obtain ⟨kh, vh⟩ := p
    by_cases h2 : k' = kh
    · subst h2; simp [List.lookup]
    · have h3 : (k' == kh) = false := by simp [h2]
      simp only [List.cons_append, List.lookup, h3]
      exact ih

theorem lookup_setKey_other (c : Completions) (k : String) (v : Bool) (k' : String)
    (hne : k' ≠ k) : (setKey c k v).lookup k' = c.lookup k' := by
  unfold setKey
  split
  · exact lookup_map_overwrite_other c k v k' hne
  · exact lookup_append_single_other c k v k' hne

theorem totalDays_setKey_ge (c : Completions) (k : String) (v : Bool) :
    totalDays c ≤ totalDays (setKey c k v) := by
  unfold setKey totalDays
  split <;> simp

theorem totalDays_toggleDay_ge (c : Completions) (d : String) :
    totalDays c ≤ totalDays (toggleDay c d) :=
  totalDays_setKey_ge c d _

/-- C10.  After `toggleCompletion(habitId, d)` the matching habit carries an
explicit boolean entry at key `d`; toggling an absent day twice leaves an
explicit `false` entry, not an absent key; a toggle never removes any
existing key; and over any sequence of toggles every habit keeps its id and
its number of entry-bearing days (the completion-rate denominator) never
decreases. -/
theorem toggle_explicit_and_monotone :
    (∀ (habits : List Habit) (habitId date : String) (h : Habit),
        h ∈ toggleCompletion habits habitId date → h.id = habitId →
          (h.completions.lookup date).isSome) ∧
      (∀ (c : Completions) (date : String), c.lookup date = none →
        (toggleDay (toggleDay c date) date).lookup date = some false) ∧
      (∀ (c : Completions) (date k : String), (c.lookup k).isSome →
        ((toggleDay c date).lookup k).isSome) ∧
      (∀ (ts : List (String × String)) (habits : List Habit),
        applyToggles ts habits = habits.map (applyTogglesHabit ts)) ∧
      (∀ (ts : List (String × String)) (h : Habit),
        (applyTogglesHabit ts h).id = h.id ∧
          totalDays h.completions ≤ totalDays (applyTogglesHabit ts h).completions) := by
  refine ⟨?_, ?_, ?_, ?_, ?_⟩
  · intro habits habitId date h hmem hid
    unfold toggleCompletion at hmem
    rcases List.mem_map.mp hmem with ⟨h₀, _, rfl⟩
    by_cases hc : h₀.id = habitId
    · rw [if_pos hc]
      show ((toggleDay h₀.completions date).lookup date).isSome
      rw [toggleDay, lookup_setKey_self]
      rfl
    · exfalso
      rw [if_neg hc] at hid
      exact absurd hid hc
  · intro c date hnone
    have h1 : completedOn c date = false := by
      unfold completedOn
      rw [hnone]
      rfl
    rw [toggleDay, toggleDay, completedOn_setKey_self, h1, lookup_setKey_self]
    rfl
  · intro c date k hsome
    by_cases hk : k = date
    · subst hk
      rw [toggleDay, lookup_setKey_self]
      rfl
    · rw [toggleDay, lookup_setKey_other _ _ _ _ hk]
      exact hsome
  · intro ts
    induction ts with
    | nil =>
      intro habits
      show habits = habits.map (applyTogglesHabit [])
      rw [show applyTogglesHabit [] = (fun h : Habit => h) from rfl, List.map_id']
    | cons p ts ih =>
      intro habits
      show applyToggles ts (toggleCompletion habits p.1 p.2) = _
      rw [ih, toggleCompletion, List.map_map]
      rfl
  · intro ts
    induction ts with
    | nil => exact fun h => ⟨rfl, Nat.le_refl _⟩
    | cons p ts ih =>
      intro h
      have hstep : applyTogglesHabit (p :: ts) h =
          applyTogglesHabit ts (if h.id = p.1 then toggleHabit h p.2 else h) := rfl
      rcases ih (if h.id = p.1 then toggleHabit h p.2 else h) with ⟨hid, hmono⟩
      constructor
      · rw [hstep, hid]
        by_cases hc : h.id = p.1
        · rw [if_pos hc, toggleHabit_id]
        · rw [if_neg hc]
      · rw [hstep]
        refine le_trans ?_ hmono
        by_cases hc : h.id = p.1
        · rw [if_pos hc]
          exact totalDays_toggleDay_ge _ _
        · rw [if_neg hc]

/-- Witness for C10 at concrete inputs. -/
theorem toggle_explicit_and_monotone_witness :
    ((⟨"1", "Read", "a", "#00f", "2024-01-01", [("2024-01-02", true)]⟩ : Habit) ∈
        toggleCompletion [⟨"1", "Read", "a", "#00f", "2024-01-01", []⟩] "1" "2024-01-02" ∧
      ((⟨"1", "Read", "a", "#00f", "2024-01-01",
          [("2024-01-02", true)]⟩ : Habit).completions.lookup "2024-01-02").isSome) ∧
      (([] : Completions).lookup "2024-01-01" = none ∧
        (toggleDay (toggleDay ([] : Completions) "2024-01-01") "2024-01-01").lookup
          "2024-01-01" = some false) :=
  ⟨⟨by decide,
      toggle_explicit_and_monotone.1 [⟨"1", "Read", "a", "#00f", "2024-01-01", []⟩]
        "1" "2024-01-02" _ (by decide) rfl⟩,
    ⟨rfl, toggle_explicit_and_monotone.2.1 [] "2024-01-01" rfl⟩⟩

/-! ## Calendar-date lemmas -/

theorem daysInMonth_bounds (y m : Int) : 28 ≤ daysInMonth y m ∧ daysInMonth y m ≤ 31 := by
  unfold daysInMonth
  split_ifs <;> omega

theorem daysInMonth_dec (y : Int) : daysInMonth y 12 = 31 := by
  unfold daysInMonth
  norm_num

theorem predDay_valid {d : Date} (hv : ValidDate d) : ValidDate (predDay d) := by
  obtain ⟨h1, h2, h3, h4⟩ := hv
  have hb1 := daysInMonth_bounds d.year (d.month - 1)
  have hb2 := daysInMonth_dec (d.year - 1)
  unfold predDay ValidDate
  split_ifs <;> dsimp <;> omega

theorem predDay_lt {d : Date} (hv : ValidDate d) : dateLt (predDay d) d := by
  obtain ⟨h1, h2, h3, h4⟩ := hv
  unfold predDay dateLt
  split_ifs <;> dsimp <;> omega

theorem predDay_year_le (d : Date) : (predDay d).year ≤ d.year := by
  unfold predDay
  split_ifs <;> dsimp <;> omega

theorem subDays_valid {d : Date} (hv : ValidDate d) (k : Nat) :
    ValidDate (subDays d k) := by
  induction k with
  | zero => exact hv
  | succ k ih => exact predDay_valid ih

theorem subDays_year_le (d : Date) (k : Nat) : (subDays d k).year ≤ d.year := by
  induction k with
  | zero => exact le_refl _
  | succ k ih => exact le_trans (predDay_year_le _) ih

theorem subDays_add (d : Date) (a b : Nat) :
    subDays d (a + b) = subDays (subDays d a) b := by
  induction b with
  | zero => rfl
  | succ b ih => show predDay (subDays d (a + b)) = _; rw [ih]; rfl

theorem dateLt_irrefl (d : Date) : ¬ dateLt d d := by
  unfold dateLt; omega

theorem formatDate_inj {a b : Date} (hva : ValidDate a) (hvb : ValidDate b)
    (ha0 : 0 ≤ a.year) (ha9 : a.year ≤ 9999) (hb0 : 0 ≤ b.year) (hb9 : b.year ≤ 9999)
    (h : formatDate a = formatDate b) : a = b := by
  obtain ⟨ha1, ha2, ha3, ha4⟩ := hva
  obtain ⟨hb1, hb2, hb3, hb4⟩ := hvb
  have hda := (daysInMonth_bounds a.year a.month).2
  have hdb := (daysInMonth_bounds b.year b.month).2
  have hd := congrArg String.data h
  simp only [formatDate, pad4, pad2, List.cons_append, List.nil_append,
    List.cons.injEq, and_true] at hd
  obtain ⟨e1, e2, e3, e4, _, e5, e6, _, e7, e8⟩ := hd
  have m10 : ∀ x : Nat, x % 10 < 10 := fun x => Nat.mod_lt _ (by norm_num)
  have y1 := digitChar_inj (m10 _) (m10 _) e1
  have y2 := digitChar_inj (m10 _) (m10 _) e2
  have y3 := digitChar_inj (m10 _) (m10 _) e3
  have y4 := digitChar_inj (m10 _) (m10 _) e4
  have mo1 := digitChar_inj (m10 _) (m10 _) e5
  have mo2 := digitChar_inj (m10 _) (m10 _) e6
  have d1 := digitChar_inj (m10 _) (m10 _) e7
  have d2 := digitChar_inj (m10 _) (m10 _) e8
  ext
  · omega
  · omega
  · omega

/-! ## C5: the day range -/

/-- C5.  For `n ≥ 1` (and a valid current date whose identifiers stay in
the four-digit-year range), `dayRange n` returns exactly `n` pairwise
distinct calendar-day identifiers; the underlying dates are chronologically
increasing with consecutive entries exactly one calendar day apart, and the
last identifier is today's. -/
theorem dayRange_spec (n : Nat) (today : Date) (hn : 1 ≤ n) (hv : ValidDate today)
    (hy0 : 0 ≤ (subDays today (n - 1)).year) (hy9 : today.year ≤ 9999) :
    (dayRange n today).length = n ∧
      (dayRange n today).Nodup ∧
      List.Chain' (fun a b => dateLt a b ∧ a = predDay b) (getDateRange n today) ∧
      (dayRange n today).getLast? = some (formatDate today) := by
  obtain ⟨m, rfl⟩ : ∃ m, n = m + 1 := ⟨n - 1, by omega⟩
  have hf : getDateRange (m + 1) today =
      (List.range (m + 1)).map (fun j => subDays today (m - j)) := by
    unfold getDateRange
    simp only [Nat.add_sub_cancel]
  have hmem : ∀ x ∈ getDateRange (m + 1) today,
      ValidDate x ∧ 0 ≤ x.year ∧ x.year ≤ 9999 := by
    intro x hx
    rw [hf] at hx
    rcases List.mem_map.mp hx with ⟨j, hj, rfl⟩
    have hj2 : j < m + 1 := List.mem_range.mp hj
    refine ⟨subDays_valid hv _, ?_, le_trans (subDays_year_le _ _) hy9⟩
    have hsplit : subDays today m = subDays (subDays today (m - j)) j := by
      rw [← subDays_add, Nat.sub_add_cancel (by omega : j ≤ m)]
    have hys := subDays_year_le (subDays today (m - j)) j
    rw [← hsplit] at hys
    simp only [Nat.add_sub_cancel] at hy0
    omega
  have hchain : List.Chain' (fun a b => dateLt a b ∧ a = predDay b)
      (getDateRange (m + 1) today) := by
    rw [hf, List.chain'_map]
    rw [List.chain'_range_succ]
    intro j hj
    have hidx : m - j = (m - (j + 1)) + 1 := by omega
    have hpred : subDays today (m - j) = predDay (subDays today (m - (j + 1))) := by
      rw [hidx]; rfl
    refine ⟨?_, hpred⟩
    rw [hpred]
    exact predDay_lt (subDays_valid hv _)
  refine ⟨by simp [dayRange, getDateRange], ?_, hchain, ?_⟩
  · show ((getDateRange (m + 1) today).map formatDate).Pairwise (· ≠ ·)
    rw [List.pairwise_map]
    have hplt : (getDateRange (m + 1) today).Pairwise dateLt :=
      List.chain'_iff_pairwise.mp (hchain.imp fun _ _ h => h.1)
    refine hplt.imp_of_mem ?_
    intro a b ha hb hab hfeq
    obtain ⟨hva, ha0, ha9⟩ := hmem a ha
    obtain ⟨hvb, hb0, hb9⟩ := hmem b hb
    rw [formatDate_inj hva hvb ha0 ha9 hb0 hb9 hfeq] at hab
    exact dateLt_irrefl b hab
  · unfold dayRange
    rw [hf, List.map_map, List.range_succ, List.map_append]
    simp only [List.map_cons, List.map_nil]
    rw [List.getLast?_concat]
    simp only [Function.comp_apply, Nat.sub_self]
    rfl

/-- Witness for C5 at a month boundary in a leap year: the three-day range
ending 2024-03-01. -/
theorem dayRange_spec_witness :
    (1 ≤ 3 ∧ ValidDate ⟨2024, 3, 1⟩ ∧
        0 ≤ (subDays ⟨2024, 3, 1⟩ (3 - 1)).year ∧ (2024:Int) ≤ 9999) ∧
      ((dayRange 3 ⟨2024, 3, 1⟩).length = 3 ∧
        (dayRange 3 ⟨2024, 3, 1⟩).Nodup ∧
        List.Chain' (fun a b => dateLt a b ∧ a = predDay b) (getDateRange 3 ⟨2024, 3, 1⟩) ∧
        (dayRange 3 ⟨2024, 3, 1⟩).getLast? = some (formatDate ⟨2024, 3, 1⟩)) :=
  ⟨⟨by omega, by decide, by decide, by omega⟩,
    dayRange_spec 3 ⟨2024, 3, 1⟩ (by omega) (by decide) (by decide) (by decide)⟩

end HabitTracker
